import Mathlib

/-!
# Verification of the `web_fourier` spectral engine and animation controller

Shallow embedding of `src/math.rs` (the `Fourier` DFT engine) and the
animation-control part of `src/animation.rs` (the playback state machine).

Modelling conventions:
* `f32`/`f64` values are modelled as exact real numbers (`ℝ`), `Complex32`
  as `ℂ`; floating-point rounding is abstracted away, so every "within
  numerical tolerance" statement becomes an exact equality, and a genuine
  mismatch shows up as a fixed nonzero discrepancy.
* Rust `usize` is modelled as `ℕ`.  The one place where `usize` arithmetic
  can wrap — the `len / 2 - 1` subtraction in `Fourier::max_frequency`,
  which underflows for a one-sample signal — is modelled with the wasm32
  release-build wrapping semantics `(len / 2 + (2^32 - 1)) % 2^32`
  (debug builds would panic there instead).  Theorems that rely on
  `max_frequency` being `len / 2 - 1` carry the platform invariant
  `length ≤ 2^32` (a wasm32 `Vec<Complex32>` can never be longer).
* Rust `Result<T, String>` values and index-out-of-bounds panics are both
  captured by `RResult`: `ok`, `err` (a returned `Err(String)`), and
  `panicked` (an uncatchable index panic, which aborts in wasm).
* Iteration with `+=` accumulation over a counted loop is modelled as a
  `Finset` sum (complex addition is commutative and associative in the
  exact model, so the fold order is irrelevant).
-/

noncomputable section

open scoped BigOperators

/-- Outcome of a Rust computation: a returned value, a returned `Err`,
or an index-out-of-bounds panic (uncatchable in wasm). -/
inductive RResult (α : Type) where
  | ok : α → RResult α
  | err : String → RResult α
  | panicked : RResult α
deriving Repr

/-- `true` exactly on `RResult.ok`. -/
def RResult.isOk {α : Type} : RResult α → Bool
  | .ok _ => true
  | _ => false

/-- `true` exactly on `RResult.err`. -/
def RResult.isErr {α : Type} : RResult α → Bool
  | .err _ => true
  | _ => false

namespace Math

/-- `1.0 / (n as f32).sqrt()` — the `norm` local of `dft` and `idft`
(`// Unitary scaling`), as a complex scalar. -/
def invSqrt (n : ℕ) : ℂ := ((1 / Real.sqrt n : ℝ) : ℂ)

/-- The `omega` local of `dft`:
`Complex32::new(0.0, -2.0 * PI / total_points as f32)`. -/
def omegaNeg (n : ℕ) : ℂ := (((-2 : ℝ) * Real.pi / n : ℝ) : ℂ) * Complex.I

/-- The `omega` local of `idft`:
`Complex32::new(0.0, 2.0 * PI / total_points as f32)`. -/
def omegaPos (n : ℕ) : ℂ := ((2 * Real.pi / n : ℝ) : ℂ) * Complex.I

/-- `fn dft(data: &[Complex32]) -> Vec<Complex32>` from `src/math.rs`:
`result[k] = (Σ_i data[i] * exp(omega*k*i)) * norm` with
`omega = -2πi/N` and `norm = 1/√N`. -/
def dft (data : List ℂ) : List ℂ :=
  (List.range data.length).map (fun k : ℕ =>
    (∑ i in Finset.range data.length,
      data.getD i 0 * Complex.exp (omegaNeg data.length * k * i)) * invSqrt data.length)

/-- `fn idft(transform: &[Complex32], k_min: usize, k_max: usize)` from
`src/math.rs`: for each time index `i`,
`result[i] = (Σ_{k=k_min}^{k_max} (transform[k]*exp(partial*k) +
    (if k == 0 skipped) transform[N-k]*exp(partial*(N-k)))) * norm`
with `partial = omega*i`, `omega = 2πi/N`, `norm = 1/√N`.
The `continue` that skips the negative-frequency partner of `k = 0` is the
`if k = 0 then 0` branch.  Indexing is modelled with `getD _ 0`; callers
(`filtered_range`) only reach this function when every index is in bounds,
and return `RResult.panicked` otherwise. -/
def idft (transform : List ℂ) (k_min k_max : ℕ) : List ℂ :=
  (List.range transform.length).map (fun i : ℕ =>
    (∑ k in Finset.Icc k_min k_max,
      (transform.getD k 0 * Complex.exp (omegaPos transform.length * i * k) +
        if k = 0 then 0 else
          transform.getD (transform.length - k) 0 *
            Complex.exp (omegaPos transform.length * i *
              ((transform.length - k : ℕ) : ℂ)))) *
      invSqrt transform.length)

/-- `pub struct Fourier` from `src/math.rs`: the original signal and its
cached DFT coefficients for all frequencies `0..N-1`. -/
structure Fourier where
  original : List ℂ
  transform : List ℂ

/-- `Fourier::from_complex`.  The `is_finite` validation loop is vacuous in
the exact model (ℝ has no NaN/Inf), so acceptance reduces to non-emptiness;
the empty-input check is kept as in the source. -/
def from_complex (data : List ℂ) : RResult Fourier :=
  if data.isEmpty then .err "Input vector is empty"
  else .ok { transform := dft data, original := data }

/-- `Fourier::from_real`: wraps each sample as `Complex32::new(x, 0.0)`. -/
def from_real (data : List ℝ) : RResult Fourier :=
  from_complex (data.map (fun x => (⟨x, 0⟩ : ℂ)))

/-- `Fourier::size`. -/
def size (f : Fourier) : ℕ := f.original.length

/-- `Fourier::max_frequency`: `self.transform.len() / 2 - 1` on `usize`.
For `len ≥ 2` this is the ordinary `len / 2 - 1`; for `len = 1` the
subtraction underflows (wasm32 release builds wrap to `usize::MAX`,
modelled here; debug builds panic). -/
def max_frequency (f : Fourier) : ℕ :=
  (f.transform.length / 2 + (2 ^ 32 - 1)) % 2 ^ 32

/-- `Fourier::filtered_range`.  The guard is the source's
`if k_min > k_max || k_max > max_k { return Err(...) }`.  The second
branch records when the unchecked `transform[k]` indexing inside `idft`
stays in bounds: the loop runs `k` over `k_min..=k_max` and reads
`transform[k]` (and `transform[N-k]` for `k > 0`), so once the guard has
passed (`k_min ≤ k_max`), some read is out of bounds exactly when
`k_max ≥ N`, and the Rust code panics there instead of returning. -/
def filtered_range (f : Fourier) (k_min k_max : ℕ) : RResult (List ℂ) :=
  if k_min > k_max ∨ k_max > max_frequency f then
    .err "Frequency range out of bounds"
  else if k_max < f.transform.length then
    .ok (idft f.transform k_min k_max)
  else .panicked

/-- The value produced by `Fourier::get_component` when the index is in
bounds: `transform[frequency] * exp(i*angle) / sqrt(N)` with
`angle = 2π * time_step * frequency / N`. -/
def componentValue (f : Fourier) (frequency time_step : ℕ) : ℂ :=
  f.transform.getD frequency 0 *
    Complex.exp (((2 * Real.pi * time_step * frequency / f.transform.length : ℝ) : ℂ) *
      Complex.I) /
    ((Real.sqrt f.transform.length : ℝ) : ℂ)

/-- `Fourier::get_component`.  The source performs the unchecked index
`self.transform[frequency]`, which panics when
`frequency ≥ transform.len()`; there is no error return in its signature. -/
def get_component (f : Fourier) (frequency time_step : ℕ) : RResult ℂ :=
  if frequency < f.transform.length then .ok (componentValue f frequency time_step)
  else .panicked

end Math

namespace Animation

/-- `DEFAULT_SPEED: f64 = 50.0` from `src/animation.rs`. -/
def DEFAULT_SPEED : ℝ := 50

/-- `pub struct Fourier` from `src/animation.rs` (the playback controller).
The `canvas` handle and the `viewport` are pure rendering glue over the
browser canvas (the external collaborator) and carry no playback state, so
they are not part of the model; every modelled field is copied verbatim. -/
structure AnimFourier where
  fourier : Math.Fourier
  k_min : ℕ
  k_max : ℕ
  current_point : ℝ
  point_speed : ℝ
  is_paused : Bool
  is_stopped : Bool

/-- `Fourier::from_fourier` (canvas creation, which always succeeds, is
omitted): starts stopped and paused, at position `0`, at `DEFAULT_SPEED`. -/
def from_fourier (fourier : Math.Fourier) (k_min k_max : ℕ) : AnimFourier :=
  { fourier := fourier, k_min := k_min, k_max := k_max,
    current_point := 0, point_speed := DEFAULT_SPEED,
    is_paused := true, is_stopped := true }

/-- `Fourier::start` (the `calculate_viewport` call and
`canvas.start_animation_loop()` are rendering glue). -/
def start (a : AnimFourier) : AnimFourier :=
  { a with is_paused := false, is_stopped := false }

/-- `Fourier::stop`: sets `is_stopped` and resets the position, but — unlike
`start`/`pause` — never touches `is_paused`. -/
def stop (a : AnimFourier) : AnimFourier :=
  { a with is_stopped := true, current_point := 0 }

/-- `Fourier::play`. -/
def play (a : AnimFourier) : AnimFourier := { a with is_paused := false }

/-- `Fourier::pause`. -/
def pause (a : AnimFourier) : AnimFourier := { a with is_paused := true }

/-- `Fourier::set_speed`. -/
def set_speed (a : AnimFourier) (speed : ℝ) : AnimFourier :=
  { a with point_speed := speed }

/-- `Fourier::check_frequency_range`: `plot_all` draws nothing and returns
early unless `k_min ≤ k_max ≤ max_frequency`. -/
def check_frequency_range (a : AnimFourier) : Bool :=
  decide (a.k_min ≤ a.k_max ∧ a.k_max ≤ Math.max_frequency a.fourier)

/-- `Fourier::step(elapsed)`: returns the updated controller together with
whether the tick rendered.  The source bails out when `is_paused` (note:
`is_stopped` is never consulted); otherwise it advances `current_point` by
`point_speed * elapsed`, snaps it to `size` when it went negative, and calls
`plot_all` with the wrapped integer index
`(size + current_point as usize) % size`.  `plot_all` itself draws exactly
when `check_frequency_range` holds, which is the returned flag; the drawing
calls are external-canvas glue. -/
def step (a : AnimFourier) (elapsed : ℝ) : AnimFourier × Bool :=
  if a.is_paused then (a, false)
  else
    let moved := a.current_point + a.point_speed * elapsed
    let cp := if moved < 0 then (Math.size a.fourier : ℝ) else moved
    ({ a with current_point := cp }, check_frequency_range a)

/-- The integer sample index `step` hands to `plot_all`:
`(self.fourier.size() + self.current_point as usize) % self.fourier.size()`
(the `f64 → usize` cast truncates; the value is nonnegative there). -/
def wrapped_index (f : Math.Fourier) (current_point : ℝ) : ℕ :=
  (Math.size f + ⌊current_point⌋.toNat) % Math.size f

/-- The running complex sum accumulated by
`Fourier::plot_fourier_components`: one `get_component(k, current_point)`
per `k` in `k_min..=k_max`, plus `get_component(total_points - k,
current_point)` for every `k > 0` in the band (the `k = 0` partner is
skipped by the `continue`).  Each addend moves the arrow chain's tip; the
final value is the red current-point marker. -/
def epicycleSum (f : Math.Fourier) (k_min k_max current_point : ℕ) : ℂ :=
  ∑ k in Finset.Icc k_min k_max,
    (Math.componentValue f k current_point +
      if k = 0 then 0 else
        Math.componentValue f (Math.size f - k) current_point)

end Animation

namespace Math

/-- Element access into a `map` over `List.range`. -/
theorem getD_map_range {α : Type} (f : ℕ → α) (d : α) {k n : ℕ} (h : k < n) :
    ((List.range n).map f).getD k d = f k := by
  simp [List.getD_eq_getElem?_getD, List.getElem?_map, List.getElem?_range h]

/-- `dft` returns one coefficient per input sample. -/
theorem dft_length (data : List ℂ) : (dft data).length = data.length := by
  unfold dft
  rw [List.length_map, List.length_range]

/-- `idft` returns one sample per coefficient. -/
theorem idft_length (transform : List ℂ) (k_min k_max : ℕ) :
    (idft transform k_min k_max).length = transform.length := by
  unfold idft
  rw [List.length_map, List.length_range]

/-- The `k`-th cached coefficient, unfolded. -/
theorem dft_getD (data : List ℂ) {k : ℕ} (h : k < data.length) :
    (dft data).getD k 0 =
      (∑ i in Finset.range data.length,
        data.getD i 0 * Complex.exp (omegaNeg data.length * k * i)) *
        invSqrt data.length := by
  unfold dft
  exact getD_map_range _ _ h

/-- The `i`-th reconstructed sample of `idft`, unfolded. -/
theorem idft_getD (transform : List ℂ) (k_min k_max : ℕ) {i : ℕ}
    (h : i < transform.length) :
    (idft transform k_min k_max).getD i 0 =
      (∑ k in Finset.Icc k_min k_max,
        (transform.getD k 0 * Complex.exp (omegaPos transform.length * i * k) +
          if k = 0 then 0 else
            transform.getD (transform.length - k) 0 *
              Complex.exp (omegaPos transform.length * i *
                ((transform.length - k : ℕ) : ℂ)))) *
        invSqrt transform.length := by
  unfold idft
  exact getD_map_range _ _ h

/-- `(1/√n) * (1/√n) = 1/n` (also for `n = 0`, where both sides vanish). -/
theorem invSqrt_mul_invSqrt (n : ℕ) : invSqrt n * invSqrt n = 1 / (n : ℂ) := by
  unfold invSqrt
  rw [← Complex.ofReal_mul, div_mul_div_comm, one_mul,
    Real.mul_self_sqrt (Nat.cast_nonneg n)]
  push_cast
  ring

/-- Clearing the `/N` inside `omegaPos`. -/
theorem nat_mul_omegaPos (N : ℕ) (hN : 0 < N) (c : ℤ) :
    (N : ℂ) * (omegaPos N * c) = (c : ℂ) * (2 * (Real.pi : ℂ) * Complex.I) := by
  have hN' : (N : ℂ) ≠ 0 := Nat.cast_ne_zero.mpr hN.ne'
  unfold omegaPos
  push_cast
  field_simp
  ring

theorem two_pi_I_ne_zero : (2 * (Real.pi : ℂ) * Complex.I) ≠ 0 := by
  refine mul_ne_zero (mul_ne_zero two_ne_zero ?_) Complex.I_ne_zero
  exact Complex.ofReal_ne_zero.mpr Real.pi_ne_zero

/-- Orthogonality of the discrete characters: summing
`exp(2πi·c·k/N)` over one period gives `N` when `N ∣ c` and `0` otherwise. -/
theorem sum_exp_orth (N : ℕ) (hN : 0 < N) (c : ℤ) :
    ∑ k in Finset.range N, Complex.exp (omegaPos N * c * k) =
      if (N : ℤ) ∣ c then (N : ℂ) else 0 := by
  have hN' : (N : ℂ) ≠ 0 := Nat.cast_ne_zero.mpr hN.ne'
  have hpow : ∀ k : ℕ, Complex.exp (omegaPos N * c * k) =
      Complex.exp (omegaPos N * c) ^ k := by
    intro k
    rw [← Complex.exp_nat_mul]
    congr 1
    ring
  rw [Finset.sum_congr rfl (fun k _ => hpow k)]
  by_cases hd : (N : ℤ) ∣ c
  · obtain ⟨m, rfl⟩ := hd
    have harg : omegaPos N * ((N * m : ℤ) : ℂ) =
        (m : ℂ) * (2 * (Real.pi : ℂ) * Complex.I) := by
      apply mul_left_cancel₀ hN'
      rw [nat_mul_omegaPos N hN (N * m)]
      push_cast
      ring
    rw [harg, Complex.exp_int_mul_two_pi_mul_I]
    simp
  · have hz1 : Complex.exp (omegaPos N * c) ≠ 1 := by
      intro h
      obtain ⟨m, hm⟩ := Complex.exp_eq_one_iff.mp h
      apply hd
      have key : (c : ℂ) * (2 * (Real.pi : ℂ) * Complex.I) =
          ((N : ℂ) * m) * (2 * (Real.pi : ℂ) * Complex.I) := by
        rw [← nat_mul_omegaPos N hN c, hm]
        ring
      have hcm : (c : ℂ) = (N : ℂ) * m := mul_right_cancel₀ two_pi_I_ne_zero key
      have hfin : (c : ℤ) = (N : ℤ) * m := by exact_mod_cast hcm
      exact ⟨m, hfin⟩
    rw [geom_sum_eq hz1]
    have hzN : Complex.exp (omegaPos N * c) ^ N = 1 := by
      rw [← Complex.exp_nat_mul, show (N : ℂ) * (omegaPos N * c) =
        (c : ℂ) * (2 * (Real.pi : ℂ) * Complex.I) from nat_mul_omegaPos N hN c]
      exact Complex.exp_int_mul_two_pi_mul_I c
    rw [hzN, if_neg hd]
    simp

/-- For `i, j < N`, `N` divides `i - j` exactly when `i = j`. -/
theorem dvd_sub_iff_eq {N i j : ℕ} (hi : i < N) (hj : j < N) :
    (N : ℤ) ∣ ((i : ℤ) - j) ↔ j = i := by
  constructor
  · rintro ⟨m, hm⟩
    have hiN : (i : ℤ) < N := by exact_mod_cast hi
    have hjN : (j : ℤ) < N := by exact_mod_cast hj
    have hi0 : (0 : ℤ) ≤ i := Int.ofNat_nonneg i
    have hj0 : (0 : ℤ) ≤ j := Int.ofNat_nonneg j
    have hN0 : (0 : ℤ) < N := by omega
    have hm0 : m = 0 := by
      by_contra hm0
      rcases lt_or_gt_of_ne hm0 with h | h
      · have hub : (N : ℤ) * m ≤ -N := by nlinarith
        linarith
      · have hlb : (N : ℤ) ≤ N * m := by nlinarith
        linarith
    subst hm0
    simp only [mul_zero] at hm
    omega
  · rintro rfl
    simp

/-- Full inverse transform: summing every cached coefficient against the
positive kernel and rescaling by `1/√N` recovers the original sample.
This is the exact-arithmetic content of the `// Unitary scaling` comments:
the forward `1/√N` and the inverse `1/√N` compose to `1/N`, which cancels
the character-sum factor `N`. -/
theorem dft_inversion (data : List ℂ) {i : ℕ} (hi : i < data.length) :
    (∑ k in Finset.range data.length,
        (dft data).getD k 0 * Complex.exp (omegaPos data.length * i * k)) *
      invSqrt data.length = data.getD i 0 := by
  classical
  have hN : 0 < data.length := Nat.lt_of_le_of_lt (Nat.zero_le i) hi
  have hNC : (data.length : ℂ) ≠ 0 := Nat.cast_ne_zero.mpr hN.ne'
  have hexp : ∀ k j : ℕ,
      Complex.exp (omegaNeg data.length * k * j) *
        Complex.exp (omegaPos data.length * i * k) =
      Complex.exp (omegaPos data.length * (((i : ℤ) - j : ℤ) : ℂ) * k) := by
    intro k j
    rw [← Complex.exp_add]
    congr 1
    unfold omegaNeg omegaPos
    push_cast
    ring
  calc (∑ k in Finset.range data.length,
          (dft data).getD k 0 * Complex.exp (omegaPos data.length * i * k)) *
        invSqrt data.length
      = ∑ k in Finset.range data.length, ∑ j in Finset.range data.length,
          data.getD j 0 *
            Complex.exp (omegaPos data.length * (((i : ℤ) - j : ℤ) : ℂ) * k) *
            (invSqrt data.length * invSqrt data.length) := by
        rw [Finset.sum_mul]
        refine Finset.sum_congr rfl fun k hk => ?_
        rw [dft_getD data (Finset.mem_range.mp hk)]
        simp only [Finset.sum_mul]
        refine Finset.sum_congr rfl fun j hj => ?_
        rw [← hexp k j]
        ring
    _ = ∑ j in Finset.range data.length,
          data.getD j 0 *
            (∑ k in Finset.range data.length,
              Complex.exp (omegaPos data.length * (((i : ℤ) - j : ℤ) : ℂ) * k)) *
            (invSqrt data.length * invSqrt data.length) := by
        rw [Finset.sum_comm]
        refine Finset.sum_congr rfl fun j hj => ?_
        simp only [Finset.sum_mul, Finset.mul_sum]
    _ = ∑ j in Finset.range data.length,
          (if j = i then data.getD j 0 * (data.length : ℂ) * (1 / (data.length : ℂ))
            else 0) := by
        refine Finset.sum_congr rfl fun j hj => ?_
        rw [sum_exp_orth data.length hN ((i : ℤ) - j), invSqrt_mul_invSqrt,
          if_congr (dvd_sub_iff_eq hi (Finset.mem_range.mp hj)) rfl rfl]
        by_cases hji : j = i
        · rw [if_pos hji, if_pos hji]
        · rw [if_neg hji, if_neg hji]
          ring
    _ = data.getD i 0 := by
        rw [Finset.sum_ite_eq' (Finset.range data.length) i
          (fun j => data.getD j 0 * (data.length : ℂ) * (1 / (data.length : ℂ))),
          if_pos (Finset.mem_range.mpr hi)]
        field_simp

end Math

namespace Math

/-- The frequency set actually visited by `idft` over the full band
`[0, N/2 - 1]` — each `k` together with its mirror `N - k` — misses exactly
the middle indices `N/2 .. N - N/2`.  When the coefficients there vanish,
the band sum coincides with the sum over every frequency `0 .. N-1`. -/
theorem idft_band_covers (t : List ℂ) (i : ℕ) (hN : 2 ≤ t.length)
    (hmid : ∀ k, t.length / 2 ≤ k → k ≤ t.length - t.length / 2 → t.getD k 0 = 0) :
    ∑ k in Finset.Icc 0 (t.length / 2 - 1),
      (t.getD k 0 * Complex.exp (omegaPos t.length * i * k) +
        if k = 0 then 0 else
          t.getD (t.length - k) 0 * Complex.exp (omegaPos t.length * i * ((t.length - k : ℕ) : ℂ)))
    = ∑ k in Finset.range t.length,
        t.getD k 0 * Complex.exp (omegaPos t.length * i * k) := by
  rw [Finset.sum_add_distrib]
  have h0 : (∑ k in Finset.Icc 0 (t.length / 2 - 1), if k = 0 then (0 : ℂ) else
      t.getD (t.length - k) 0 * Complex.exp (omegaPos t.length * i * ((t.length - k : ℕ) : ℂ)))
      = ∑ k in Finset.Icc 1 (t.length / 2 - 1),
          t.getD (t.length - k) 0 *
            Complex.exp (omegaPos t.length * i * ((t.length - k : ℕ) : ℂ)) := by
    have hins : Finset.Icc 0 (t.length / 2 - 1) =
        insert 0 (Finset.Icc 1 (t.length / 2 - 1)) := by
      ext x
      simp only [Finset.mem_Icc, Finset.mem_insert]
      omega
    rw [hins, Finset.sum_insert (by simp), if_pos rfl, zero_add]
    refine Finset.sum_congr rfl fun k hk => ?_
    have hk1 : k ≠ 0 := by
      have := Finset.mem_Icc.mp hk
      omega
    rw [if_neg hk1]
  have h1 : (∑ k in Finset.Icc 1 (t.length / 2 - 1),
        t.getD (t.length - k) 0 *
          Complex.exp (omegaPos t.length * i * ((t.length - k : ℕ) : ℂ)))
      = ∑ k in Finset.Icc (t.length - (t.length / 2 - 1)) (t.length - 1),
          t.getD k 0 * Complex.exp (omegaPos t.length * i * k) := by
    refine Finset.sum_nbij' (fun k => t.length - k) (fun k => t.length - k)
      ?_ ?_ ?_ ?_ ?_
    · intro a ha
      simp only [Finset.mem_Icc] at ha ⊢
      omega
    · intro a ha
      simp only [Finset.mem_Icc] at ha ⊢
      omega
    · intro a ha
      simp only [Finset.mem_Icc] at ha
      show t.length - (t.length - a) = a
      omega
    · intro a ha
      simp only [Finset.mem_Icc] at ha
      show t.length - (t.length - a) = a
      omega
    · intro a ha
      rfl
  have h2 : (∑ k in Finset.Icc (t.length / 2) (t.length - t.length / 2),
      t.getD k 0 * Complex.exp (omegaPos t.length * i * k)) = 0 := by
    refine Finset.sum_eq_zero fun k hk => ?_
    have hk' := Finset.mem_Icc.mp hk
    rw [hmid k hk'.1 hk'.2, zero_mul]
  have hsplit : (∑ k in Finset.range t.length,
        t.getD k 0 * Complex.exp (omegaPos t.length * i * k))
      = (∑ k in Finset.Icc 0 (t.length / 2 - 1),
          t.getD k 0 * Complex.exp (omegaPos t.length * i * k))
        + ((∑ k in Finset.Icc (t.length / 2) (t.length - t.length / 2),
            t.getD k 0 * Complex.exp (omegaPos t.length * i * k))
          + ∑ k in Finset.Icc (t.length - (t.length / 2 - 1)) (t.length - 1),
              t.getD k 0 * Complex.exp (omegaPos t.length * i * k)) := by
    have e1 : Finset.Icc 0 (t.length / 2 - 1) = Finset.Ico 0 (t.length / 2) := by
      ext x
      simp only [Finset.mem_Icc, Finset.mem_Ico]
      omega
    have e2 : Finset.Icc (t.length / 2) (t.length - t.length / 2) =
        Finset.Ico (t.length / 2) (t.length - (t.length / 2 - 1)) := by
      ext x
      simp only [Finset.mem_Icc, Finset.mem_Ico]
      omega
    have e3 : Finset.Icc (t.length - (t.length / 2 - 1)) (t.length - 1) =
        Finset.Ico (t.length - (t.length / 2 - 1)) t.length := by
      ext x
      simp only [Finset.mem_Icc, Finset.mem_Ico]
      omega
    rw [e1, e2, e3, Finset.range_eq_Ico,
      Finset.sum_Ico_consecutive
        (fun k : ℕ => t.getD k 0 * Complex.exp (omegaPos t.length * i * k))
        (show t.length / 2 ≤ t.length - (t.length / 2 - 1) by omega)
        (show t.length - (t.length / 2 - 1) ≤ t.length by omega),
      Finset.sum_Ico_consecutive
        (fun k : ℕ => t.getD k 0 * Complex.exp (omegaPos t.length * i * k))
        (show 0 ≤ t.length / 2 by omega)
        (show t.length / 2 ≤ t.length by omega)]
  rw [h0, h1, hsplit, h2, zero_add]

end Math

namespace Math

/-- Unfolding an accepted construction: the stored signal is the input,
the cached coefficients are its `dft`, and the input was nonempty. -/
theorem from_complex_ok {d : List ℂ} {f : Fourier} (h : from_complex d = .ok f) :
    f.original = d ∧ f.transform = dft d ∧ d ≠ [] := by
  unfold from_complex at h
  by_cases hd : d.isEmpty
  · rw [if_pos hd] at h
    exact absurd h (by simp)
  · rw [if_neg hd] at h
    injection h with h1
    subst h1
    refine ⟨rfl, rfl, ?_⟩
    simpa using hd

/-- On every signal of at least two samples (and of wasm32-representable
length), the wrapping `usize` subtraction in `max_frequency` does not
wrap and the accessor returns `N / 2 - 1`. -/
theorem max_frequency_eq {f : Fourier} (h2 : 2 ≤ f.transform.length)
    (h32 : f.transform.length ≤ 2 ^ 32) :
    max_frequency f = f.transform.length / 2 - 1 := by
  unfold max_frequency
  omega

/-- Example signal: the four-sample unit impulse `[1, 0, 0, 0]`. -/
def sig4 : List ℂ := [1, 0, 0, 0]

/-- The engine built from `sig4`. -/
def f4 : Fourier := { original := sig4, transform := dft sig4 }

theorem from_complex_sig4 : from_complex sig4 = .ok f4 := rfl

theorem sqrt_four : Real.sqrt 4 = 2 := by
  rw [show (4 : ℝ) = 2 ^ 2 by norm_num, Real.sqrt_sq (by norm_num : (0:ℝ) ≤ 2)]

theorem invSqrt_four : invSqrt 4 = 1 / 2 := by
  unfold invSqrt
  rw [show ((4 : ℕ) : ℝ) = (4 : ℝ) by norm_num, sqrt_four]
  norm_num

/-- The cached coefficients of the unit impulse: every one equals `1/2`
(`(1/√4) · 1`). -/
theorem dft_sig4 : dft sig4 = [1/2, 1/2, 1/2, 1/2] := by
  unfold dft
  rw [show sig4.length = 4 from rfl, show List.range 4 = [0, 1, 2, 3] from rfl]
  simp [sig4, Finset.sum_range_succ, invSqrt_four, List.getD]

theorem max_frequency_f4 : max_frequency f4 = 1 := by
  unfold max_frequency f4
  rw [dft_length]
  norm_num [sig4]

end Math

namespace Math

/-- The coefficient formula asserted by the spec (§4.1):
`coefficients[k] = (1/N) * Σ_{i=0}^{N-1} sample[i] * exp(-2πi·k·i/N)` —
written from the spec's words, for comparison against the source's `dft`. -/
def claimedCoeff (data : List ℂ) (k : ℕ) : ℂ :=
  (1 / (data.length : ℂ)) *
    ∑ i in Finset.range data.length,
      data.getD i 0 *
        Complex.exp ((((-2) * Real.pi * k * i / data.length : ℝ) : ℂ) * Complex.I)

/-- The band-reconstruction formula asserted by the spec (§4.1):
`result[i] = Σ_{k=k_min}^{k_max} coefficients[k]·exp(+2πi·k·i/N) +
[k>0] coefficients[N-k]·exp(+2πi·(N-k)·i/N)` — written from the spec's
words (note: no normalization factor), for comparison against `idft`. -/
def claimedBandValue (t : List ℂ) (k_min k_max i : ℕ) : ℂ :=
  ∑ k in Finset.Icc k_min k_max,
    (t.getD k 0 *
        Complex.exp (((2 * Real.pi * k * i / t.length : ℝ) : ℂ) * Complex.I) +
      if k = 0 then 0 else
        t.getD (t.length - k) 0 *
          Complex.exp (((2 * Real.pi * ((t.length - k : ℕ) : ℝ) * i / t.length : ℝ) : ℂ) *
            Complex.I))

/-- The single-component formula asserted by the spec (§4.1):
`coefficients[frequency] * exp(+2πi·frequency·time_step/N)` — written from
the spec's words (note: no `1/√N`), for comparison against `get_component`. -/
def claimedComponent (f : Fourier) (frequency time_step : ℕ) : ℂ :=
  f.transform.getD frequency 0 *
    Complex.exp (((2 * Real.pi * frequency * time_step / f.transform.length : ℝ) : ℂ) *
      Complex.I)

/-- Example signal: the two-sample signal `[1, 2]`. -/
def sig2 : List ℂ := [1, 2]

/-- The engine built from `sig2`. -/
def f2 : Fourier := { original := sig2, transform := dft sig2 }

theorem from_complex_sig2 : from_complex sig2 = .ok f2 := rfl

theorem max_frequency_f2 : max_frequency f2 = 0 := by
  unfold max_frequency f2
  rw [dft_length]
  norm_num [sig2]

/-- Example signal: the one-sample signal `[1]`, where
`max_frequency`'s subtraction underflows. -/
def sig1 : List ℂ := [1]

/-- The engine built from `sig1`. -/
def f1 : Fourier := { original := sig1, transform := dft sig1 }

theorem from_complex_sig1 : from_complex sig1 = .ok f1 := rfl

theorem max_frequency_f1 : max_frequency f1 = 2 ^ 32 - 1 := by
  unfold max_frequency f1
  rw [dft_length]
  norm_num [sig1]

/-- Example signal: `[1, 0, -1, 0]`, whose spectrum is supported on the
frequency pair `{1, 3}` — in particular the middle coefficient (index 2)
vanishes. -/
def sig4c : List ℂ := [1, 0, -1, 0]

/-- The engine built from `sig4c`. -/
def f4c : Fourier := { original := sig4c, transform := dft sig4c }

theorem from_complex_sig4c : from_complex sig4c = .ok f4c := rfl

/-- The middle coefficient of `sig4c` vanishes:
`t_2 = (1 - exp(-2πi)) / 2 = 0`. -/
theorem dft_sig4c_mid : (dft sig4c).getD 2 0 = 0 := by
  rw [dft_getD sig4c (by norm_num [sig4c])]
  rw [show sig4c.length = 4 from rfl]
  rw [Finset.sum_range_succ, Finset.sum_range_succ, Finset.sum_range_succ,
    Finset.sum_range_succ, Finset.sum_range_zero]
  simp only [sig4c, List.getD_cons_zero, List.getD_cons_succ, zero_mul,
    add_zero, zero_add, Nat.cast_zero, mul_zero, Complex.exp_zero, mul_one,
    one_mul]
  rw [show omegaNeg 4 * (2 : ℕ) * (2 : ℕ) =
      ((-1 : ℤ) : ℂ) * (2 * (Real.pi : ℂ) * Complex.I) from by
    unfold omegaNeg
    push_cast
    ring]
  rw [Complex.exp_int_mul_two_pi_mul_I]
  ring

end Math

namespace Math

/-- `filtered_range(0, max_frequency)` on the impulse engine succeeds with
the band `[0, 1]` reconstruction. -/
theorem filtered_range_f4_full :
    filtered_range f4 0 (max_frequency f4) = .ok (idft (dft sig4) 0 1) := by
  unfold filtered_range
  rw [max_frequency_f4]
  rw [if_neg (by norm_num)]
  rw [if_pos (by rw [show f4.transform = dft sig4 from rfl, dft_length]; norm_num [sig4])]
  rfl

/-- `filtered_range(0, 0)` on the impulse engine succeeds with the DC-only
reconstruction. -/
theorem filtered_range_f4_dc :
    filtered_range f4 0 0 = .ok (idft (dft sig4) 0 0) := by
  unfold filtered_range
  rw [max_frequency_f4]
  rw [if_neg (by norm_num)]
  rw [if_pos (by rw [show f4.transform = dft sig4 from rfl, dft_length]; norm_num [sig4])]
  rfl

/-- On the one-sample engine the underflowed `max_frequency` lets
`k_max = 1` through the guard, and the `transform[1]` read inside `idft`
is out of bounds: the call panics instead of returning. -/
theorem filtered_range_f1_panics : filtered_range f1 0 1 = .panicked := by
  unfold filtered_range
  rw [max_frequency_f1]
  rw [if_neg (by norm_num)]
  rw [if_neg (by rw [show f1.transform = dft sig1 from rfl, dft_length]; norm_num [sig1])]

/-- Evaluating the band `[0, 1]` reconstruction of the impulse at sample 0:
`(1/2 + 1/2 + 1/2) * (1/2) = 3/4`. -/
theorem idft_sig4_band01_at0 : (idft (dft sig4) 0 1).getD 0 0 = 3/4 := by
  rw [dft_sig4]
  rw [idft_getD _ 0 1 (by norm_num)]
  rw [show Finset.Icc (0 : ℕ) 1 = {0, 1} from by decide]
  rw [Finset.sum_pair (by norm_num : (0 : ℕ) ≠ 1)]
  simp [List.getD, invSqrt_four]
  norm_num

/-- Evaluating the DC-only reconstruction of the impulse at sample 0:
`(1/2) * (1/2) = 1/4`. -/
theorem idft_sig4_band00_at0 : (idft (dft sig4) 0 0).getD 0 0 = 1/4 := by
  rw [dft_sig4]
  rw [idft_getD _ 0 0 (by norm_num)]
  rw [Finset.Icc_self, Finset.sum_singleton]
  simp [List.getD, invSqrt_four]
  norm_num

end Math

namespace Animation

/-- A controller over the impulse engine with band `[0, 1]`. -/
def a4 : AnimFourier := from_fourier Math.f4 0 1

/-- The same controller after `start()`. -/
def a4run : AnimFourier := start a4

/-- The same controller after `start()` then `stop()`: it is in the
Stopped state (`is_stopped = true`) but `is_paused` was left `false`. -/
def a4stopped : AnimFourier := stop a4run

end Animation

/-- Claim C10 (confirmed): construction does not mean-center the input —
`original()` returns exactly the samples passed to construction and
`size()` equals the input length; real input is stored with zero
imaginary parts. -/
theorem claim_C10 (d : List ℂ) (xs : List ℝ) :
    (∀ f, Math.from_complex d = .ok f →
      f.original = d ∧ Math.size f = d.length) ∧
    (∀ g, Math.from_real xs = .ok g →
      g.original = xs.map (fun x => (⟨x, 0⟩ : ℂ)) ∧ Math.size g = xs.length ∧
      ∀ i, (g.original.getD i 0).im = 0) := by
  constructor
  · intro f hf
    obtain ⟨ho, -, -⟩ := Math.from_complex_ok hf
    exact ⟨ho, by rw [Math.size, ho]⟩
  · intro g hg
    obtain ⟨ho, -, -⟩ := Math.from_complex_ok hg
    refine ⟨ho, by rw [Math.size, ho, List.length_map], ?_⟩
    intro i
    rw [ho, List.getD_eq_getElem?_getD, List.getElem?_map]
    cases xs[i]? <;> simp

/-- Witness for C10 at the concrete inputs `sig4` and `[1]`. -/
theorem claim_C10_witness :
    Math.from_complex Math.sig4 = .ok Math.f4 ∧
    Math.f4.original = Math.sig4 ∧ Math.size Math.f4 = Math.sig4.length ∧
    ({ original := [(⟨1, 0⟩ : ℂ)], transform := Math.dft [(⟨1, 0⟩ : ℂ)] } :
        Math.Fourier).original = [(1 : ℝ)].map (fun x => (⟨x, 0⟩ : ℂ)) := by
  refine ⟨Math.from_complex_sig4, ?_, ?_, ?_⟩
  · exact ((claim_C10 Math.sig4 [1]).1 Math.f4 Math.from_complex_sig4).1
  · exact ((claim_C10 Math.sig4 [1]).1 Math.f4 Math.from_complex_sig4).2
  · exact ((claim_C10 Math.sig4 [1]).2
      { original := [(⟨1, 0⟩ : ℂ)], transform := Math.dft [(⟨1, 0⟩ : ℂ)] } rfl).1

/-- Claim C9 (counterexample): a controller that was started and then
stopped is in the Stopped state, yet `step` advances its position from `0`
to `50` and renders, because `stop()` never sets `is_paused` and `step`
only consults `is_paused`. -/
theorem claim_C9_counterexample :
    Animation.a4stopped.is_stopped = true ∧
    Animation.a4stopped.current_point = 0 ∧
    (Animation.step Animation.a4stopped 1).1.current_point = 50 ∧
    (Animation.step Animation.a4stopped 1).2 = true := by
  refine ⟨rfl, rfl, ?_, ?_⟩
  · unfold Animation.step
    rw [if_neg (by decide : ¬Animation.a4stopped.is_paused = true)]
    show (if (Animation.a4stopped.current_point +
        Animation.a4stopped.point_speed * 1 < 0) then
          ((Math.size Animation.a4stopped.fourier : ℕ) : ℝ)
        else Animation.a4stopped.current_point +
          Animation.a4stopped.point_speed * 1) = 50
    rw [show Animation.a4stopped.current_point = 0 from rfl,
      show Animation.a4stopped.point_speed = Animation.DEFAULT_SPEED from rfl]
    unfold Animation.DEFAULT_SPEED
    norm_num
  · unfold Animation.step
    rw [if_neg (by decide : ¬Animation.a4stopped.is_paused = true)]
    show Animation.check_frequency_range Animation.a4stopped = true
    unfold Animation.check_frequency_range
    rw [show Animation.a4stopped.fourier = Math.f4 from rfl,
      Math.max_frequency_f4]
    decide

/-- Claim C9 amended: `step` is a no-op exactly when `is_paused` holds —
it then leaves the whole controller state unchanged and does not render.
(The initial Stopped state has `is_paused = true` and is covered; a
Stopped state reached by `stop()` during playback is not, as the
counterexample shows.) -/
theorem claim_C9_amended (a : Animation.AnimFourier) (elapsed : ℝ)
    (h : a.is_paused = true) :
    Animation.step a elapsed = (a, false) := by
  unfold Animation.step
  rw [if_pos h]

/-- Witness for the amended C9 at a concrete paused controller. -/
theorem claim_C9_witness :
    (Animation.from_fourier Math.f4 0 1).is_paused = true ∧
    Animation.step (Animation.from_fourier Math.f4 0 1) 2 =
      (Animation.from_fourier Math.f4 0 1, false) :=
  ⟨rfl, claim_C9_amended (Animation.from_fourier Math.f4 0 1) 2 rfl⟩

/-- Claim C3 (counterexample): on the two-sample signal `[1, 2]` the
accessor returns `max_frequency = 0`, not `floor(N/2) = 1` as claimed. -/
theorem claim_C3_counterexample :
    Math.from_complex Math.sig2 = .ok Math.f2 ∧
    Math.max_frequency Math.f2 = 0 ∧
    Math.sig2.length / 2 = 1 ∧
    Math.max_frequency Math.f2 ≠ Math.sig2.length / 2 := by
  refine ⟨Math.from_complex_sig2, Math.max_frequency_f2, rfl, ?_⟩
  rw [Math.max_frequency_f2]
  norm_num [Math.sig2]

/-- Claim C3 amended: for every accepted signal with `2 ≤ N` (of wasm32
length), `max_frequency()` returns `N/2 - 1` (not `N/2`; at `N = 1` the
`usize` subtraction underflows), and band requests with
`k_max > N/2 - 1` or `k_min > k_max` are rejected. -/
theorem claim_C3_amended (d : List ℂ) (f : Math.Fourier) (k_min k_max : ℕ)
    (hok : Math.from_complex d = .ok f) (h2 : 2 ≤ d.length)
    (h32 : d.length ≤ 2 ^ 32) :
    Math.max_frequency f = d.length / 2 - 1 ∧
    (k_min > k_max ∨ k_max > d.length / 2 - 1 →
      (Math.filtered_range f k_min k_max).isErr = true) := by
  obtain ⟨-, ht, -⟩ := Math.from_complex_ok hok
  have hlen : f.transform.length = d.length := by rw [ht, Math.dft_length]
  have hmf : Math.max_frequency f = d.length / 2 - 1 := by
    rw [Math.max_frequency_eq (by rw [hlen]; exact h2) (by rw [hlen]; exact h32),
      hlen]
  refine ⟨hmf, fun hb => ?_⟩
  unfold Math.filtered_range
  rw [if_pos (by rw [hmf]; exact hb)]
  rfl

/-- Witness for the amended C3 at `sig2` with the spec's example band
`(5, 3)`. -/
theorem claim_C3_witness :
    (Math.from_complex Math.sig2 = .ok Math.f2 ∧ 2 ≤ Math.sig2.length ∧
      Math.sig2.length ≤ 2 ^ 32) ∧
    Math.max_frequency Math.f2 = Math.sig2.length / 2 - 1 ∧
    ((5 : ℕ) > 3 ∨ (3 : ℕ) > Math.sig2.length / 2 - 1 →
      (Math.filtered_range Math.f2 5 3).isErr = true) := by
  refine ⟨⟨Math.from_complex_sig2, by norm_num [Math.sig2], by norm_num [Math.sig2]⟩, ?_⟩
  exact claim_C3_amended Math.sig2 Math.f2 5 3 Math.from_complex_sig2
    (by norm_num [Math.sig2]) (by norm_num [Math.sig2])

/-- Claim C7 (counterexample): on the one-sample signal `[1]` the band
`(0, 1)` is not rejected (the underflowed `max_frequency` is huge), but
`filtered_range` does not return a signal either — the out-of-bounds
`transform[1]` read panics. -/
theorem claim_C7_counterexample :
    Math.from_complex Math.sig1 = .ok Math.f1 ∧
    ¬((0 : ℕ) > 1 ∨ (1 : ℕ) > Math.max_frequency Math.f1) ∧
    Math.filtered_range Math.f1 0 1 = .panicked ∧
    (Math.filtered_range Math.f1 0 1).isOk = false ∧
    (Math.filtered_range Math.f1 0 1).isErr = false := by
  refine ⟨Math.from_complex_sig1, ?_, Math.filtered_range_f1_panics, ?_, ?_⟩
  · rw [Math.max_frequency_f1]
    norm_num
  · rw [Math.filtered_range_f1_panics]
    rfl
  · rw [Math.filtered_range_f1_panics]
    rfl

/-- Claim C7 amended: for every accepted signal with `2 ≤ N` (of wasm32
length), `filtered_range` returns `InvalidRange` exactly when
`k_min > k_max` or `k_max > max_frequency()`, and otherwise returns a
signal of length `N`.  (At `N = 1` the guard is degenerate and an
in-guard call can panic, as the counterexample shows.) -/
theorem claim_C7_amended (d : List ℂ) (f : Math.Fourier) (k_min k_max : ℕ)
    (hok : Math.from_complex d = .ok f) (h2 : 2 ≤ d.length)
    (h32 : d.length ≤ 2 ^ 32) :
    ((Math.filtered_range f k_min k_max).isErr = true ↔
      (k_min > k_max ∨ k_max > Math.max_frequency f)) ∧
    (¬(k_min > k_max ∨ k_max > Math.max_frequency f) →
      Math.filtered_range f k_min k_max = .ok (Math.idft f.transform k_min k_max) ∧
      (Math.idft f.transform k_min k_max).length = d.length) := by
  obtain ⟨-, ht, -⟩ := Math.from_complex_ok hok
  have hlen : f.transform.length = d.length := by rw [ht, Math.dft_length]
  have hmf : Math.max_frequency f = d.length / 2 - 1 := by
    rw [Math.max_frequency_eq (by rw [hlen]; exact h2) (by rw [hlen]; exact h32),
      hlen]
  have hkm : ¬(k_min > k_max ∨ k_max > Math.max_frequency f) →
      k_max < f.transform.length := by
    intro hcond
    push_neg at hcond
    rw [hmf] at hcond
    rw [hlen]
    omega
  constructor
  · constructor
    · intro hE
      by_contra hcond
      unfold Math.filtered_range at hE
      rw [if_neg hcond, if_pos (hkm hcond)] at hE
      simp [RResult.isErr] at hE
    · intro hcond
      unfold Math.filtered_range
      rw [if_pos hcond]
      rfl
  · intro hcond
    constructor
    · unfold Math.filtered_range
      rw [if_neg hcond, if_pos (hkm hcond)]
    · rw [Math.idft_length, hlen]

/-- Witness for the amended C7 at `sig4` with the valid band `(0, 1)`. -/
theorem claim_C7_witness :
    (Math.from_complex Math.sig4 = .ok Math.f4 ∧ 2 ≤ Math.sig4.length ∧
      Math.sig4.length ≤ 2 ^ 32 ∧
      ¬((0 : ℕ) > 1 ∨ (1 : ℕ) > Math.max_frequency Math.f4)) ∧
    (Math.filtered_range Math.f4 0 1 = .ok (Math.idft Math.f4.transform 0 1) ∧
      (Math.idft Math.f4.transform 0 1).length = Math.sig4.length) := by
  have hcond : ¬((0 : ℕ) > 1 ∨ (1 : ℕ) > Math.max_frequency Math.f4) := by
    rw [Math.max_frequency_f4]
    norm_num
  refine ⟨⟨Math.from_complex_sig4, by norm_num [Math.sig4],
    by norm_num [Math.sig4], hcond⟩, ?_⟩
  exact (claim_C7_amended Math.sig4 Math.f4 0 1 Math.from_complex_sig4
    (by norm_num [Math.sig4]) (by norm_num [Math.sig4])).2 hcond

/-- Claim C6 (confirmed): for every accepted signal, `filtered_range(0,0)`
succeeds and returns the constant signal whose value at every index is the
arithmetic mean of `original()` (construction never mean-centers, so the
mean branch of the claim applies); in the exact model the equality is
exact. -/
theorem claim_C6 (d : List ℂ) (f : Math.Fourier)
    (hok : Math.from_complex d = .ok f) :
    Math.filtered_range f 0 0 = .ok (Math.idft f.transform 0 0) ∧
    ∀ i < d.length, (Math.idft f.transform 0 0).getD i 0 =
      (∑ j in Finset.range d.length, d.getD j 0) / d.length := by
  obtain ⟨ho, ht, hne⟩ := Math.from_complex_ok hok
  have hpos : 0 < d.length := List.length_pos.mpr hne
  have hlen : f.transform.length = d.length := by rw [ht, Math.dft_length]
  constructor
  · unfold Math.filtered_range
    rw [if_neg (by simp), if_pos (by omega)]
  · intro i hi
    rw [ht]
    rw [Math.idft_getD (Math.dft d) 0 0 (by rw [Math.dft_length]; omega)]
    rw [Finset.Icc_self, Finset.sum_singleton, if_pos rfl]
    simp only [Math.dft_length, Nat.cast_zero, mul_zero, Complex.exp_zero,
      mul_one, add_zero]
    rw [Math.dft_getD d hpos]
    simp only [Nat.cast_zero, mul_zero, zero_mul, Complex.exp_zero, mul_one]
    rw [mul_assoc, Math.invSqrt_mul_invSqrt, mul_one_div]

/-- Witness for C6 at the impulse signal. -/
theorem claim_C6_witness :
    Math.from_complex Math.sig4 = .ok Math.f4 ∧
    Math.filtered_range Math.f4 0 0 = .ok (Math.idft Math.f4.transform 0 0) ∧
    ∀ i < Math.sig4.length, (Math.idft Math.f4.transform 0 0).getD i 0 =
      (∑ j in Finset.range Math.sig4.length, Math.sig4.getD j 0) /
        Math.sig4.length := by
  have h := claim_C6 Math.sig4 Math.f4 Math.from_complex_sig4
  exact ⟨Math.from_complex_sig4, h.1, h.2⟩

/-- Evaluating the spec's `1/N`-normalized coefficient formula on the
impulse at `k = 0`: it gives `1/4`. -/
theorem claimedCoeff_sig4_0 : Math.claimedCoeff Math.sig4 0 = 1/4 := by
  unfold Math.claimedCoeff
  rw [show Math.sig4.length = 4 from rfl]
  rw [Finset.sum_range_succ, Finset.sum_range_succ, Finset.sum_range_succ,
    Finset.sum_range_succ, Finset.sum_range_zero]
  simp [Math.sig4, List.getD]

/-- Claim C2 (counterexample): the cached coefficient of the impulse at
`k = 0` is `1/2` (unitary `1/√N` scaling), while the claim's
`(1/N)`-normalized formula gives `1/4`. -/
theorem claim_C2_counterexample :
    (Math.dft Math.sig4).getD 0 0 = 1/2 ∧
    Math.claimedCoeff Math.sig4 0 = 1/4 ∧
    (Math.dft Math.sig4).getD 0 0 ≠ Math.claimedCoeff Math.sig4 0 := by
  have h1 : (Math.dft Math.sig4).getD 0 0 = 1/2 := by
    rw [Math.dft_sig4]
    rfl
  refine ⟨h1, claimedCoeff_sig4_0, ?_⟩
  rw [h1, claimedCoeff_sig4_0]
  norm_num

/-- Claim C2 amended: the cached coefficient at each `k` equals
`(1/√N) * Σ_{i=0}^{N-1} sample[i] * exp(-2πi·k·i/N)` — unitary
normalization, not the claimed `1/N`. -/
theorem claim_C2_amended (d : List ℂ) (f : Math.Fourier) (k : ℕ)
    (hok : Math.from_complex d = .ok f) (hk : k < d.length) :
    f.transform.getD k 0 =
      (1 / ((Real.sqrt d.length : ℝ) : ℂ)) *
        ∑ i in Finset.range d.length,
          d.getD i 0 *
            Complex.exp ((((-2) * Real.pi * k * i / d.length : ℝ) : ℂ) *
              Complex.I) := by
  obtain ⟨-, ht, -⟩ := Math.from_complex_ok hok
  rw [ht, Math.dft_getD d hk, mul_comm]
  congr 1
  · unfold Math.invSqrt
    push_cast
    ring_nf
  · refine Finset.sum_congr rfl fun i hi => ?_
    refine congrArg (fun z : ℂ => d.getD i 0 * z) (congrArg Complex.exp ?_)
    unfold Math.omegaNeg
    push_cast
    ring

/-- Witness for the amended C2 at the impulse, `k = 1`. -/
theorem claim_C2_witness :
    (Math.from_complex Math.sig4 = .ok Math.f4 ∧ 1 < Math.sig4.length) ∧
    Math.f4.transform.getD 1 0 =
      (1 / ((Real.sqrt Math.sig4.length : ℝ) : ℂ)) *
        ∑ i in Finset.range Math.sig4.length,
          Math.sig4.getD i 0 *
            Complex.exp ((((-2) * Real.pi * (1 : ℕ) * i / Math.sig4.length : ℝ) : ℂ) *
              Complex.I) := by
  refine ⟨⟨Math.from_complex_sig4, by norm_num [Math.sig4]⟩, ?_⟩
  exact claim_C2_amended Math.sig4 Math.f4 1 Math.from_complex_sig4
    (by norm_num [Math.sig4])

/-- `get_component` on the impulse at `(frequency, time_step) = (1, 0)`
returns `(1/2) * 1 / √4 = 1/4`. -/
theorem get_component_f4_1_0 : Math.get_component Math.f4 1 0 = .ok (1/4) := by
  unfold Math.get_component
  rw [if_pos (by
    rw [show Math.f4.transform = Math.dft Math.sig4 from rfl, Math.dft_length]
    norm_num [Math.sig4])]
  congr 1
  unfold Math.componentValue
  rw [show Math.f4.transform = Math.dft Math.sig4 from rfl, Math.dft_sig4]
  simp [List.getD, Math.sqrt_four]
  norm_num

/-- The spec's un-normalized component formula on the impulse at `(1, 0)`
gives `1/2`. -/
theorem claimedComponent_f4_1_0 : Math.claimedComponent Math.f4 1 0 = 1/2 := by
  unfold Math.claimedComponent
  rw [show Math.f4.transform = Math.dft Math.sig4 from rfl, Math.dft_sig4]
  simp [List.getD]

/-- Claim C8 (counterexample): in range, `get_component(1, 0)` on the
impulse returns `1/4`, not the claimed `coefficients[1]·exp(0) = 1/2`
(the source divides by `√N`); out of range, `get_component(N, 0)` panics
on the unchecked index instead of returning a typed error. -/
theorem claim_C8_counterexample :
    Math.get_component Math.f4 1 0 = .ok (1/4) ∧
    Math.claimedComponent Math.f4 1 0 = 1/2 ∧
    ((1 : ℂ)/4) ≠ 1/2 ∧
    Math.get_component Math.f4 4 0 = .panicked := by
  refine ⟨get_component_f4_1_0, claimedComponent_f4_1_0, by norm_num, ?_⟩
  unfold Math.get_component
  rw [if_neg (by
    rw [show Math.f4.transform = Math.dft Math.sig4 from rfl, Math.dft_length]
    norm_num [Math.sig4])]

/-- Claim C8 amended: for `frequency` in `0..N-1`, `get_component` returns
`coefficients[frequency]·exp(+2πi·frequency·time_step/N) / √N`; for
`frequency ≥ N` the unchecked `transform[frequency]` index panics — an
uncatchable fault, not a typed `FrequencyOutOfBounds` error. -/
theorem claim_C8_amended (d : List ℂ) (f : Math.Fourier)
    (frequency time_step : ℕ) (hok : Math.from_complex d = .ok f) :
    (frequency < d.length →
      Math.get_component f frequency time_step =
        .ok (Math.claimedComponent f frequency time_step /
          ((Real.sqrt d.length : ℝ) : ℂ))) ∧
    (d.length ≤ frequency →
      Math.get_component f frequency time_step = .panicked) := by
  obtain ⟨-, ht, -⟩ := Math.from_complex_ok hok
  have hlen : f.transform.length = d.length := by rw [ht, Math.dft_length]
  constructor
  · intro hf
    unfold Math.get_component
    rw [if_pos (by omega)]
    congr 1
    unfold Math.componentValue Math.claimedComponent
    rw [hlen]
    rw [show ((2 * Real.pi * time_step * frequency / d.length : ℝ) : ℂ) =
        ((2 * Real.pi * frequency * time_step / d.length : ℝ) : ℂ) from
      congrArg _ (by ring)]
  · intro hf
    unfold Math.get_component
    rw [if_neg (by omega)]

/-- Witness for the amended C8 at the impulse: in-range `(1, 0)` and the
out-of-range frequency `4`. -/
theorem claim_C8_witness :
    Math.from_complex Math.sig4 = .ok Math.f4 ∧ 1 < Math.sig4.length ∧
    Math.get_component Math.f4 1 0 =
      .ok (Math.claimedComponent Math.f4 1 0 /
        ((Real.sqrt Math.sig4.length : ℝ) : ℂ)) ∧
    Math.get_component Math.f4 4 0 = .panicked := by
  refine ⟨Math.from_complex_sig4, by norm_num [Math.sig4], ?_, ?_⟩
  · exact (claim_C8_amended Math.sig4 Math.f4 1 0 Math.from_complex_sig4).1
      (by norm_num [Math.sig4])
  · exact (claim_C8_amended Math.sig4 Math.f4 4 0 Math.from_complex_sig4).2
      (by norm_num [Math.sig4])

/-- Evaluating the spec's un-normalized band formula on the impulse for
the DC-only band at sample 0: it gives `coefficients[0] = 1/2`. -/
theorem claimedBandValue_sig4_dc :
    Math.claimedBandValue (Math.dft Math.sig4) 0 0 0 = 1/2 := by
  unfold Math.claimedBandValue
  rw [Math.dft_sig4]
  rw [Finset.Icc_self, Finset.sum_singleton, if_pos rfl]
  simp [List.getD]

/-- Claim C5 (counterexample): on the impulse with band `(0,0)`,
`filtered_range` returns `1/4` at sample 0, while the claim's formula
(with the actual cached coefficients, and no normalization factor)
gives `1/2` — the source multiplies the sum by `1/√N`. -/
theorem claim_C5_counterexample :
    Math.filtered_range Math.f4 0 0 = .ok (Math.idft (Math.dft Math.sig4) 0 0) ∧
    (Math.idft (Math.dft Math.sig4) 0 0).getD 0 0 = 1/4 ∧
    Math.claimedBandValue (Math.dft Math.sig4) 0 0 0 = 1/2 ∧
    (Math.idft (Math.dft Math.sig4) 0 0).getD 0 0 ≠
      Math.claimedBandValue (Math.dft Math.sig4) 0 0 0 := by
  refine ⟨Math.filtered_range_f4_dc, Math.idft_sig4_band00_at0,
    claimedBandValue_sig4_dc, ?_⟩
  rw [Math.idft_sig4_band00_at0, claimedBandValue_sig4_dc]
  norm_num

/-- Claim C5 amended: each reconstructed sample equals the spec's band
formula scaled by `1/√N`:
`result[i] = (1/√N) * (Σ_{k=k_min}^{k_max} coefficients[k]·exp(+2πi·k·i/N)
+ [k>0] coefficients[N-k]·exp(+2πi·(N-k)·i/N))`, with `k = 0` never
double-counted. -/
theorem claim_C5_amended (d : List ℂ) (f : Math.Fourier) (k_min k_max : ℕ)
    (hok : Math.from_complex d = .ok f) (h2 : 2 ≤ d.length)
    (h32 : d.length ≤ 2 ^ 32)
    (hvalid : ¬(k_min > k_max ∨ k_max > Math.max_frequency f)) :
    Math.filtered_range f k_min k_max = .ok (Math.idft f.transform k_min k_max) ∧
    ∀ i < d.length, (Math.idft f.transform k_min k_max).getD i 0 =
      Math.claimedBandValue f.transform k_min k_max i *
        ((1 / Real.sqrt d.length : ℝ) : ℂ) := by
  obtain ⟨-, ht, -⟩ := Math.from_complex_ok hok
  have hlen : f.transform.length = d.length := by rw [ht, Math.dft_length]
  have hmf : Math.max_frequency f = d.length / 2 - 1 := by
    rw [Math.max_frequency_eq (by rw [hlen]; exact h2) (by rw [hlen]; exact h32),
      hlen]
  have hkm : k_max < f.transform.length := by
    push_neg at hvalid
    rw [hmf] at hvalid
    rw [hlen]
    omega
  constructor
  · unfold Math.filtered_range
    rw [if_neg (by push_neg at hvalid ⊢; exact hvalid), if_pos hkm]
  · intro i hi
    rw [Math.idft_getD f.transform k_min k_max (by omega)]
    have hsc : Math.invSqrt f.transform.length =
        ((1 / Real.sqrt d.length : ℝ) : ℂ) := by
      rw [hlen]
      rfl
    rw [hsc]
    refine congrArg (fun z : ℂ => z * ((1 / Real.sqrt d.length : ℝ) : ℂ)) ?_
    unfold Math.claimedBandValue
    refine Finset.sum_congr rfl fun k hk => ?_
    have e1 : Complex.exp
        (((2 * Real.pi * k * i / f.transform.length : ℝ) : ℂ) * Complex.I) =
        Complex.exp (Math.omegaPos f.transform.length * i * k) := by
      refine congrArg Complex.exp ?_
      unfold Math.omegaPos
      push_cast
      ring
    have e2 : Complex.exp
        (((2 * Real.pi * ((f.transform.length - k : ℕ) : ℝ) * i /
            f.transform.length : ℝ) : ℂ) * Complex.I) =
        Complex.exp (Math.omegaPos f.transform.length * i *
          ((f.transform.length - k : ℕ) : ℂ)) := by
      refine congrArg Complex.exp ?_
      unfold Math.omegaPos
      push_cast
      ring
    rw [e1, e2]

/-- Witness for the amended C5 at the impulse with band `(0, 1)`. -/
theorem claim_C5_witness :
    (Math.from_complex Math.sig4 = .ok Math.f4 ∧ 2 ≤ Math.sig4.length ∧
      Math.sig4.length ≤ 2 ^ 32 ∧
      ¬((0 : ℕ) > 1 ∨ (1 : ℕ) > Math.max_frequency Math.f4)) ∧
    (Math.filtered_range Math.f4 0 1 = .ok (Math.idft Math.f4.transform 0 1) ∧
    ∀ i < Math.sig4.length, (Math.idft Math.f4.transform 0 1).getD i 0 =
      Math.claimedBandValue Math.f4.transform 0 1 i *
        ((1 / Real.sqrt Math.sig4.length : ℝ) : ℂ)) := by
  have hcond : ¬((0 : ℕ) > 1 ∨ (1 : ℕ) > Math.max_frequency Math.f4) := by
    rw [Math.max_frequency_f4]
    norm_num
  refine ⟨⟨Math.from_complex_sig4, by norm_num [Math.sig4],
    by norm_num [Math.sig4], hcond⟩, ?_⟩
  exact claim_C5_amended Math.sig4 Math.f4 0 1 Math.from_complex_sig4
    (by norm_num [Math.sig4]) (by norm_num [Math.sig4]) hcond

/-- Claim C4 (confirmed, exact in the real-number model): on any accepted
signal with `2 ≤ N` (of wasm32 length), for any band accepted by the
guard and any sample index, chaining `get_component(k, current_point)`
for `k` in the band — plus `get_component(N-k, current_point)` for each
`k > 0` (exactly the loop of `plot_fourier_components`) — sums to
`filtered_range(k_min, k_max)[current_point]`. -/
theorem claim_C4 (d : List ℂ) (f : Math.Fourier)
    (k_min k_max current_point : ℕ)
    (hok : Math.from_complex d = .ok f) (h2 : 2 ≤ d.length)
    (h32 : d.length ≤ 2 ^ 32)
    (hvalid : ¬(k_min > k_max ∨ k_max > Math.max_frequency f))
    (hcp : current_point < d.length) :
    Math.filtered_range f k_min k_max = .ok (Math.idft f.transform k_min k_max) ∧
    (∀ k, k_min ≤ k → k ≤ k_max →
      Math.get_component f k current_point =
        .ok (Math.componentValue f k current_point) ∧
      (k ≠ 0 → Math.get_component f (Math.size f - k) current_point =
        .ok (Math.componentValue f (Math.size f - k) current_point))) ∧
    Animation.epicycleSum f k_min k_max current_point =
      (Math.idft f.transform k_min k_max).getD current_point 0 := by
  obtain ⟨ho, ht, -⟩ := Math.from_complex_ok hok
  have hlen : f.transform.length = d.length := by rw [ht, Math.dft_length]
  have hsz : Math.size f = f.transform.length := by
    rw [Math.size, ho, hlen]
  have hmf : Math.max_frequency f = d.length / 2 - 1 := by
    rw [Math.max_frequency_eq (by rw [hlen]; exact h2) (by rw [hlen]; exact h32),
      hlen]
  have hkm : k_max < f.transform.length := by
    push_neg at hvalid
    rw [hmf] at hvalid
    rw [hlen]
    omega
  refine ⟨?_, ?_, ?_⟩
  · unfold Math.filtered_range
    rw [if_neg hvalid, if_pos hkm]
  · intro k hk1 hk2
    constructor
    · unfold Math.get_component
      rw [if_pos (by omega)]
    · intro hk0
      unfold Math.get_component
      rw [if_pos (by rw [hsz]; omega)]
  · unfold Animation.epicycleSum
    simp only [hsz]
    rw [Math.idft_getD f.transform k_min k_max (by omega), Finset.sum_mul]
    refine Finset.sum_congr rfl fun k hk => ?_
    rw [add_mul, ite_mul, zero_mul]
    have hc1 : Math.componentValue f k current_point =
        f.transform.getD k 0 *
          Complex.exp (Math.omegaPos f.transform.length * current_point * k) *
          Math.invSqrt f.transform.length := by
      unfold Math.componentValue Math.invSqrt
      rw [div_eq_mul_inv, one_div, Complex.ofReal_inv]
      refine congrArg (fun z : ℂ => f.transform.getD k 0 * z *
        ((Real.sqrt f.transform.length : ℝ) : ℂ)⁻¹) ?_
      refine congrArg Complex.exp ?_
      unfold Math.omegaPos
      push_cast
      ring
    have hc2 : Math.componentValue f (f.transform.length - k) current_point =
        f.transform.getD (f.transform.length - k) 0 *
          Complex.exp (Math.omegaPos f.transform.length * current_point *
            ((f.transform.length - k : ℕ) : ℂ)) *
          Math.invSqrt f.transform.length := by
      unfold Math.componentValue Math.invSqrt
      rw [div_eq_mul_inv, one_div, Complex.ofReal_inv]
      refine congrArg (fun z : ℂ => f.transform.getD (f.transform.length - k) 0 *
        z * ((Real.sqrt f.transform.length : ℝ) : ℂ)⁻¹) ?_
      refine congrArg Complex.exp ?_
      unfold Math.omegaPos
      push_cast
      ring
    rw [hc1, hc2]

/-- Witness for C4 at the impulse, band `(0, 1)`, sample 0. -/
theorem claim_C4_witness :
    (Math.from_complex Math.sig4 = .ok Math.f4 ∧ 2 ≤ Math.sig4.length ∧
      Math.sig4.length ≤ 2 ^ 32 ∧
      ¬((0 : ℕ) > 1 ∨ (1 : ℕ) > Math.max_frequency Math.f4) ∧
      (0 : ℕ) < Math.sig4.length) ∧
    Animation.epicycleSum Math.f4 0 1 0 =
      (Math.idft Math.f4.transform 0 1).getD 0 0 := by
  have hcond : ¬((0 : ℕ) > 1 ∨ (1 : ℕ) > Math.max_frequency Math.f4) := by
    rw [Math.max_frequency_f4]
    norm_num
  refine ⟨⟨Math.from_complex_sig4, by norm_num [Math.sig4],
    by norm_num [Math.sig4], hcond, by norm_num [Math.sig4]⟩, ?_⟩
  exact (claim_C4 Math.sig4 Math.f4 0 1 0 Math.from_complex_sig4
    (by norm_num [Math.sig4]) (by norm_num [Math.sig4]) hcond
    (by norm_num [Math.sig4])).2.2

/-- Claim C1 (counterexample): on the accepted four-sample impulse,
`filtered_range(0, max_frequency())` succeeds but returns `3/4` at index
0, where `original()` is `1` — an absolute error of `1/4`, far outside
any small numerical tolerance.  The band `[0, max_frequency] = [0, 1]`
with mirrors `{3}` omits frequency 2, so the round trip fails. -/
theorem claim_C1_counterexample :
    Math.from_complex Math.sig4 = .ok Math.f4 ∧
    Math.filtered_range Math.f4 0 (Math.max_frequency Math.f4) =
      .ok (Math.idft (Math.dft Math.sig4) 0 1) ∧
    (Math.idft (Math.dft Math.sig4) 0 1).getD 0 0 = 3/4 ∧
    Math.sig4.getD 0 0 = 1 ∧
    Complex.abs ((Math.idft (Math.dft Math.sig4) 0 1).getD 0 0 -
      Math.sig4.getD 0 0) = 1/4 := by
  refine ⟨Math.from_complex_sig4, Math.filtered_range_f4_full,
    Math.idft_sig4_band01_at0, rfl, ?_⟩
  rw [Math.idft_sig4_band01_at0, show Math.sig4.getD 0 0 = 1 from rfl]
  rw [show ((3 : ℂ)/4 - 1) = ((-(1/4) : ℝ) : ℂ) from by push_cast; ring]
  rw [Complex.abs_ofReal]
  norm_num

/-- Claim C1 amended: `filtered_range(0, max_frequency())` succeeds on
every accepted signal with `2 ≤ N` (of wasm32 length), but the band
`[0, N/2 - 1]` plus mirrors omits the middle frequencies
`N/2 .. N - N/2`; the result equals `original()` at every index exactly
when the cached coefficients at those omitted frequencies vanish (proved
here for that case; the counterexample shows it fails otherwise). -/
theorem claim_C1_amended (d : List ℂ) (f : Math.Fourier)
    (hok : Math.from_complex d = .ok f) (h2 : 2 ≤ d.length)
    (h32 : d.length ≤ 2 ^ 32)
    (hmid : ∀ k, d.length / 2 ≤ k → k ≤ d.length - d.length / 2 →
      (Math.dft d).getD k 0 = 0) :
    Math.filtered_range f 0 (Math.max_frequency f) =
      .ok (Math.idft f.transform 0 (d.length / 2 - 1)) ∧
    ∀ i < d.length,
      (Math.idft f.transform 0 (d.length / 2 - 1)).getD i 0 = d.getD i 0 := by
  obtain ⟨-, ht, -⟩ := Math.from_complex_ok hok
  have hlen : f.transform.length = d.length := by rw [ht, Math.dft_length]
  have hmf : Math.max_frequency f = d.length / 2 - 1 := by
    rw [Math.max_frequency_eq (by rw [hlen]; exact h2) (by rw [hlen]; exact h32),
      hlen]
  constructor
  · unfold Math.filtered_range
    rw [hmf]
    rw [if_neg (by omega), if_pos (by omega)]
  · intro i hi
    rw [ht]
    rw [show d.length / 2 - 1 = (Math.dft d).length / 2 - 1 from by
      rw [Math.dft_length]]
    rw [Math.idft_getD (Math.dft d) 0 ((Math.dft d).length / 2 - 1)
      (by rw [Math.dft_length]; omega)]
    rw [Math.idft_band_covers (Math.dft d) i
      (by rw [Math.dft_length]; omega)
      (by
        intro k hk1 hk2
        refine hmid k ?_ ?_
        · rwa [Math.dft_length] at hk1
        · rwa [Math.dft_length] at hk2)]
    simp only [Math.dft_length]
    exact Math.dft_inversion d hi

/-- Witness for the amended C1 at `sig4c = [1, 0, -1, 0]`, whose middle
coefficient vanishes, so the round trip is exact there. -/
theorem claim_C1_witness :
    (Math.from_complex Math.sig4c = .ok Math.f4c ∧ 2 ≤ Math.sig4c.length ∧
      Math.sig4c.length ≤ 2 ^ 32 ∧
      (∀ k, Math.sig4c.length / 2 ≤ k →
        k ≤ Math.sig4c.length - Math.sig4c.length / 2 →
        (Math.dft Math.sig4c).getD k 0 = 0)) ∧
    (Math.filtered_range Math.f4c 0 (Math.max_frequency Math.f4c) =
      .ok (Math.idft Math.f4c.transform 0 (Math.sig4c.length / 2 - 1)) ∧
    ∀ i < Math.sig4c.length,
      (Math.idft Math.f4c.transform 0 (Math.sig4c.length / 2 - 1)).getD i 0 =
        Math.sig4c.getD i 0) := by
  have hmid : ∀ k, Math.sig4c.length / 2 ≤ k →
      k ≤ Math.sig4c.length - Math.sig4c.length / 2 →
      (Math.dft Math.sig4c).getD k 0 = 0 := by
    intro k h1 h2
    norm_num [Math.sig4c] at h1 h2
    have hk : k = 2 := by omega
    subst hk
    exact Math.dft_sig4c_mid
  refine ⟨⟨Math.from_complex_sig4c, by norm_num [Math.sig4c],
    by norm_num [Math.sig4c], hmid⟩, ?_⟩
  exact claim_C1_amended Math.sig4c Math.f4c Math.from_complex_sig4c
    (by norm_num [Math.sig4c]) (by norm_num [Math.sig4c]) hmid
